import Mathlib

/-!
Verification of the suggestion and trigger logic of the
obsidian-code-language-completer plugin (src/main.ts).

JavaScript strings are modelled as `List Char`; the string and array
primitives the source uses (`toLowerCase`, `startsWith`, `includes`,
`split`, `trim`, `Set`) are embedded as executable Lean functions.
Host editor calls made by the plugin (range replacement, cursor moves,
settings persistence) are recorded as explicit effect values.
-/

/-- The characters of a Lean string literal, used to write concrete
JavaScript strings as `List Char`. -/
def lit (s : String) : List Char := s.data

/-- The backtick character (code point 96). -/
def backtick : Char := Char.ofNat 96

/-- JavaScript regex `\w` word characters (no Unicode flag in the source
regex): ASCII letters, digits and underscore. -/
def isWordChar (c : Char) : Bool :=
  decide (('a' ≤ c ∧ c ≤ 'z') ∨ ('A' ≤ c ∧ c ≤ 'Z') ∨ ('0' ≤ c ∧ c ≤ '9') ∨ c = '_')

/-- `String.prototype.toLowerCase` on one character, restricted to the
ASCII simple case mapping (characters outside A-Z are left unchanged;
the plugin's candidate data is ASCII). -/
def toLowerCaseChar (c : Char) : Char :=
  if 'A' ≤ c ∧ c ≤ 'Z' then Char.ofNat (c.toNat + 32) else c

/-- JavaScript `s.toLowerCase()`. -/
def jsToLowerCase (s : List Char) : List Char := s.map toLowerCaseChar

/-- JavaScript `s.startsWith(p)`: `p` is a literal prefix of `s`. -/
def jsStartsWith : List Char → List Char → Bool
  | _, [] => true
  | [], _ :: _ => false
  | a :: as, b :: bs => decide (a = b) && jsStartsWith as bs

/-- JavaScript `arr.includes(x)` for an array of strings. -/
def jsIncludes : List (List Char) → List Char → Bool
  | [], _ => false
  | y :: ys, x => decide (y = x) || jsIncludes ys x

/-- JavaScript `s.split(",")` (single-character separator, no limit):
`"".split(",")` is `[""]`, and empty segments are kept. -/
def splitOnComma : List Char → List (List Char)
  | [] => [[]]
  | c :: rest =>
    if c = ',' then [] :: splitOnComma rest
    else
      match splitOnComma rest with
      | [] => [[c]]
      | h :: t => (c :: h) :: t

/-- The whitespace stripped by `String.prototype.trim`, restricted to the
ASCII whitespace characters. -/
def isTrimWhitespace (c : Char) : Bool :=
  decide (c = ' ' ∨ c = '\t' ∨ c = '\n' ∨ c = '\r' ∨ c = '\x0b' ∨ c = '\x0c')

/-- JavaScript `s.trim()`. -/
def jsTrim (s : List Char) : List Char :=
  ((s.dropWhile isTrimWhitespace).reverse.dropWhile isTrimWhitespace).reverse

/-- The persisted settings record, `CodeBlockInserterSettings` in
src/main.ts. -/
structure CodeBlockInserterSettings where
  lastUsedLanguage : List Char
  additionalLanguages : List Char
deriving DecidableEq

/-- `DEFAULT_SETTINGS` in src/main.ts: both fields default to the empty
string. -/
def DEFAULT_SETTINGS : CodeBlockInserterSettings :=
  { lastUsedLanguage := [], additionalLanguages := [] }

/-- What the host key-value store (`loadData`) may hand back: a missing
record, or a record in which either field may be absent. -/
structure StoredSettingsData where
  lastUsedLanguage : Option (List Char)
  additionalLanguages : Option (List Char)
deriving DecidableEq

/-- `CodeBlockInserterPlugin.loadSettings`:
`Object.assign({}, DEFAULT_SETTINGS, await this.loadData())`. A missing
record leaves the defaults; a present field overrides the default. -/
def loadSettings (stored : Option StoredSettingsData) : CodeBlockInserterSettings :=
  match stored with
  | none => DEFAULT_SETTINGS
  | some d =>
    { lastUsedLanguage := d.lastUsedLanguage.getD DEFAULT_SETTINGS.lastUsedLanguage,
      additionalLanguages :=
        d.additionalLanguages.getD DEFAULT_SETTINGS.additionalLanguages }

/-- An editor position (`EditorPosition` in the host API): line number and
character column. The column is an integer because `onTrigger` can produce
a negative column. -/
structure EditorPosition where
  line : Nat
  ch : Int
deriving DecidableEq

/-- The trigger result (`EditorSuggestTriggerInfo`). The field `stop`
models the source field `end`, which is a Lean keyword. -/
structure EditorSuggestTriggerInfo where
  start : EditorPosition
  stop : EditorPosition
  query : List Char
deriving DecidableEq

/-- One attempt of the source regex (three backticks, then a captured run
of word characters, then end of input) at a given start position: it
succeeds when the text from that position is three backticks followed only
by word characters up to the end of the line, capturing those word
characters. -/
def matchFenceHere : List Char → Option (List Char)
  | c1 :: c2 :: c3 :: rest =>
    if c1 = backtick ∧ c2 = backtick ∧ c3 = backtick ∧ rest.all isWordChar then
      some rest
    else none
  | _ => none

/-- The source's `line.match(...)` with the fence regex: the regex engine
tries each start position from the left and returns the first capture. -/
def fenceMatch : List Char → Option (List Char)
  | [] => none
  | c :: rest =>
    match matchFenceHere (c :: rest) with
    | some w => some w
    | none => fenceMatch rest

/-- `LanguageSuggester.onTrigger`. The source reads the full text of the
cursor's line (`editor.getLine(cursor.line)`), matches it against the
fence regex, and on a match returns the trigger whose start column is the
cursor column minus the capture's length and whose end is the cursor. -/
def onTrigger (cursor : EditorPosition) (line : List Char) :
    Option EditorSuggestTriggerInfo :=
  match fenceMatch line with
  | some w =>
    some { start := { line := cursor.line, ch := cursor.ch - w.length },
           stop := cursor,
           query := w }
  | none => none

/-- `LanguageSuggester.getSuggestions`: lower-case the query, filter the
candidate list to prefix matches, and move a usable `lastUsedLanguage` to
the front. The JavaScript truthiness test on `lastUsedLanguage` is
non-emptiness. -/
def getSuggestions (query : List Char) (languages : List (List Char))
    (lastUsedLanguage : List Char) : List (List Char) :=
  let q := jsToLowerCase query
  let suggestions := languages.filter (fun lang => jsStartsWith lang q)
  if decide (lastUsedLanguage ≠ []) && jsStartsWith lastUsedLanguage q &&
      jsIncludes suggestions lastUsedLanguage then
    lastUsedLanguage ::
      suggestions.filter (fun lang => decide (lang ≠ lastUsedLanguage))
  else
    suggestions

/-- The `baseLanguages` array of `LanguageSuggester.updateLanguages`. -/
def baseLanguages : List (List Char) :=
  [lit "javascript", lit "python", lit "java", lit "c", lit "cpp",
   lit "csharp", lit "ruby", lit "go", lit "rust", lit "swift",
   lit "kotlin", lit "php", lit "html", lit "css", lit "sql",
   lit "bash", lit "powershell", lit "markdown", lit "json",
   lit "yaml", lit "xml", lit "typescript", lit "ocaml"]

/-- The parsing of `settings.additionalLanguages` inside
`updateLanguages`: split on commas, trim each segment, drop segments that
are empty after trimming. -/
def parseAdditionalLanguages (s : List Char) : List (List Char) :=
  ((splitOnComma s).map jsTrim).filter (fun lang => decide (lang.length > 0))

/-- `Array.from(new Set(l))`: keep the first occurrence of every element,
in iteration order. `seen` accumulates the elements already emitted. -/
def setDedupAux (seen : List (List Char)) : List (List Char) → List (List Char)
  | [] => []
  | x :: xs =>
    if x ∈ seen then setDedupAux seen xs
    else x :: setDedupAux (x :: seen) xs

/-- `Array.from(new Set(l))`. -/
def arrayFromSet (l : List (List Char)) : List (List Char) := setDedupAux [] l

/-- `LanguageSuggester.updateLanguages`: the candidate list is the user's
parsed additional languages followed by the built-ins, with duplicates
collapsed to their first occurrence. -/
def updateLanguages (additionalLanguages : List Char) : List (List Char) :=
  arrayFromSet (parseAdditionalLanguages additionalLanguages ++ baseLanguages)

/-- The index of the first occurrence of `x` in a list of strings (the
list's length when `x` is absent). -/
def firstIdx (x : List Char) : List (List Char) → Nat
  | [] => 0
  | y :: ys => if y = x then 0 else firstIdx x ys + 1

/-- The spec's case-insensitive starts-with relation: both sides are
lower-cased before the literal prefix test. -/
def ciStartsWith (s q : List Char) : Bool :=
  jsStartsWith (jsToLowerCase s) (jsToLowerCase q)

/-- The mutable state of a `LanguageSuggester` together with its plugin's
settings record. -/
structure LanguageSuggesterState where
  languages : List (List Char)
  settings : CodeBlockInserterSettings
deriving DecidableEq

/-- One call of `getSuggestions` on the suggester's state: the method only
reads `this.languages` and `this.plugin.settings.lastUsedLanguage` and
assigns nothing, so the state after the call is returned unchanged. -/
def getSuggestionsCall (st : LanguageSuggesterState) (query : List Char) :
    List (List Char) × LanguageSuggesterState :=
  (getSuggestions query st.languages st.settings.lastUsedLanguage, st)

/-- The host editor calls issued by `selectSuggestion`, recorded as data:
the requested range replacement, the save request, and the cursor move. -/
structure SelectSuggestionEffect where
  replaceStart : EditorPosition
  replaceStop : EditorPosition
  replaceText : List Char
  saveRequested : Bool
  newCursor : EditorPosition
deriving DecidableEq

/-- `LanguageSuggester.selectSuggestion`: replace the trigger context's
range `start..end` with the chosen string, set
`settings.lastUsedLanguage`, request a save, and move the cursor to line
`end.line + 1`, column 0. `ctxStart`/`ctxStop` are the context's range. -/
def selectSuggestion (lang : List Char) (ctxStart ctxStop : EditorPosition)
    (st : LanguageSuggesterState) :
    SelectSuggestionEffect × LanguageSuggesterState :=
  ({ replaceStart := ctxStart,
     replaceStop := ctxStop,
     replaceText := lang,
     saveRequested := true,
     newCursor := { line := ctxStop.line + 1, ch := 0 } },
   { st with settings := { st.settings with lastUsedLanguage := lang } })

/-- The editor calls issued by the `insert-code-block-custom` command's
editor callback, recorded as data. -/
structure InsertCodeBlockEffect where
  insertedText : List Char
  insertAt : EditorPosition
  newCursor : EditorPosition
deriving DecidableEq

/-- The `insert-code-block-custom` command: insert the literal fence text
at the cursor and move the cursor three columns right on the same line.
The callback touches no suggester or settings state, so the state passes
through unchanged. -/
def insertCodeBlockCommand (cursor : EditorPosition)
    (st : LanguageSuggesterState) :
    InsertCodeBlockEffect × LanguageSuggesterState :=
  ({ insertedText := lit "```\n\n```",
     insertAt := cursor,
     newCursor := { line := cursor.line, ch := cursor.ch + 3 } }, st)

/-! ### Helper lemmas -/

theorem jsIncludes_iff (l : List (List Char)) (x : List Char) :
    jsIncludes l x = true ↔ x ∈ l := by
  induction l with
  | nil => simp [jsIncludes]
  | cons y ys ih =>
    simp only [jsIncludes, Bool.or_eq_true, decide_eq_true_eq, List.mem_cons, ih]
    constructor
    · rintro (rfl | h)
      · exact Or.inl rfl
      · exact Or.inr h
    · rintro (rfl | h)
      · exact Or.inl rfl
      · exact Or.inr h

theorem getSuggestions_cond_pos (query : List Char) (languages : List (List Char))
    (last : List Char) (h1 : last ≠ [])
    (h2 : jsStartsWith last (jsToLowerCase query) = true)
    (h3 : last ∈ languages.filter (fun lang => jsStartsWith lang (jsToLowerCase query))) :
    getSuggestions query languages last =
      last ::
        (languages.filter (fun lang => jsStartsWith lang (jsToLowerCase query))).filter
          (fun lang => decide (lang ≠ last)) := by
  have hc : (decide (last ≠ []) && jsStartsWith last (jsToLowerCase query) &&
      jsIncludes (languages.filter (fun lang => jsStartsWith lang (jsToLowerCase query)))
        last) = true := by
    simp only [Bool.and_eq_true, decide_eq_true_eq]
    exact ⟨⟨h1, h2⟩, (jsIncludes_iff _ _).2 h3⟩
  simp only [getSuggestions, hc, if_true]

theorem getSuggestions_cond_neg (query : List Char) (languages : List (List Char))
    (last : List Char)
    (h : ¬(last ≠ [] ∧ jsStartsWith last (jsToLowerCase query) = true ∧
        last ∈ languages.filter (fun lang => jsStartsWith lang (jsToLowerCase query)))) :
    getSuggestions query languages last =
      languages.filter (fun lang => jsStartsWith lang (jsToLowerCase query)) := by
  have hc : (decide (last ≠ []) && jsStartsWith last (jsToLowerCase query) &&
      jsIncludes (languages.filter (fun lang => jsStartsWith lang (jsToLowerCase query)))
        last) = false := by
    rcases Bool.eq_false_or_eq_true (decide (last ≠ []) &&
        jsStartsWith last (jsToLowerCase query) &&
        jsIncludes (languages.filter (fun lang => jsStartsWith lang (jsToLowerCase query)))
          last) with ht | hf
    · exfalso
      apply h
      simp only [Bool.and_eq_true, decide_eq_true_eq] at ht
      exact ⟨ht.1.1, ht.1.2, (jsIncludes_iff _ _).1 ht.2⟩
    · exact hf
  simp only [getSuggestions, hc, Bool.false_eq_true, if_false]

theorem mem_getSuggestions (query : List Char) (languages : List (List Char))
    (last x : List Char) :
    x ∈ getSuggestions query languages last ↔
      x ∈ languages.filter (fun lang => jsStartsWith lang (jsToLowerCase query)) := by
  by_cases h : last ≠ [] ∧ jsStartsWith last (jsToLowerCase query) = true ∧
      last ∈ languages.filter (fun lang => jsStartsWith lang (jsToLowerCase query))
  · rw [getSuggestions_cond_pos query languages last h.1 h.2.1 h.2.2]
    simp only [List.mem_cons, List.mem_filter, decide_eq_true_eq]
    constructor
    · rintro (rfl | ⟨hmem, _⟩)
      · exact List.mem_filter.1 h.2.2
      · exact hmem
    · intro hx
      by_cases hxl : x = last
      · exact Or.inl hxl
      · exact Or.inr ⟨hx, hxl⟩
  · rw [getSuggestions_cond_neg query languages last h]

theorem no_backtick_of_all_word (w : List Char) (h : w.all isWordChar = true) :
    backtick ∉ w := by
  intro hmem
  have hw := List.all_eq_true.1 h backtick hmem
  exact absurd hw (by decide)

theorem matchFenceHere_eq_some (l w : List Char) :
    matchFenceHere l = some w ↔
      l = backtick :: backtick :: backtick :: w ∧ w.all isWordChar = true := by
  rcases l with _ | ⟨c1, _ | ⟨c2, _ | ⟨c3, rest⟩⟩⟩
  · simp [matchFenceHere]
  · simp [matchFenceHere]
  · simp [matchFenceHere]
  · simp only [matchFenceHere]
    split
    · next hcond =>
      obtain ⟨rfl, rfl, rfl, h4⟩ := hcond
      simp only [Option.some.injEq, List.cons.injEq, true_and]
      constructor
      · rintro rfl
        exact ⟨rfl, h4⟩
      · rintro ⟨rfl, _⟩
        rfl
    · next hcond =>
      constructor
      · intro hfalse
        cases hfalse
      · rintro ⟨heq, hall⟩
        exfalso
        apply hcond
        simp only [List.cons.injEq] at heq
        obtain ⟨rfl, rfl, rfl, rfl⟩ := heq
        exact ⟨rfl, rfl, rfl, hall⟩

theorem fence_decomp_unique (p w w' : List Char)
    (_hall : w.all isWordChar = true) (hall' : w'.all isWordChar = true)
    (key : backtick :: backtick :: backtick :: w' =
      p ++ backtick :: backtick :: backtick :: w) :
    w' = w := by
  rcases p with _ | ⟨d1, _ | ⟨d2, _ | ⟨d3, p'⟩⟩⟩
  · simpa using key
  · exfalso
    simp only [List.cons_append, List.nil_append, List.cons.injEq] at key
    obtain ⟨-, -, -, hw'⟩ := key
    exact no_backtick_of_all_word w' hall' (hw' ▸ List.mem_cons_self backtick w)
  · exfalso
    simp only [List.cons_append, List.nil_append, List.cons.injEq] at key
    obtain ⟨-, -, -, hw'⟩ := key
    refine no_backtick_of_all_word w' hall' ?_
    rw [hw']
    exact List.mem_cons_self backtick (backtick :: w)
  · exfalso
    simp only [List.cons_append, List.cons.injEq] at key
    obtain ⟨-, -, -, hw'⟩ := key
    refine no_backtick_of_all_word w' hall' ?_
    rw [hw']
    exact List.mem_append_right p' (List.mem_cons_self backtick _)

theorem fenceMatch_eq_some (l : List Char) : ∀ (w : List Char),
    fenceMatch l = some w ↔
      (∃ p, l = p ++ backtick :: backtick :: backtick :: w) ∧
        w.all isWordChar = true := by
  induction l with
  | nil =>
    intro w
    constructor
    · intro h
      cases h
    · rintro ⟨⟨p, hp⟩, -⟩
      exfalso
      cases p with
      | nil => cases hp
      | cons d p' => cases hp
  | cons c rest ih =>
    intro w
    simp only [fenceMatch]
    cases hm : matchFenceHere (c :: rest) with
    | some w' =>
      obtain ⟨hl, hall'⟩ := (matchFenceHere_eq_some _ _).1 hm
      constructor
      · intro h
        obtain rfl : w' = w := by
          cases h
          rfl
        exact ⟨⟨[], by simpa using hl⟩, hall'⟩
      · rintro ⟨⟨p, hp⟩, hall⟩
        have key : backtick :: backtick :: backtick :: w' =
            p ++ backtick :: backtick :: backtick :: w := by
          rw [← hl, ← hp]
        rw [fence_decomp_unique p w w' hall hall' key]
    | none =>
      rw [ih w]
      constructor
      · rintro ⟨⟨p, hp⟩, hall⟩
        exact ⟨⟨c :: p, by rw [hp]; rfl⟩, hall⟩
      · rintro ⟨⟨p, hp⟩, hall⟩
        cases p with
        | nil =>
          exfalso
          have : matchFenceHere (c :: rest) = some w := by
            rw [matchFenceHere_eq_some]
            exact ⟨by simpa using hp, hall⟩
          rw [hm] at this
          cases this
        | cons d p' =>
          simp only [List.cons_append, List.cons.injEq] at hp
          exact ⟨⟨p', hp.2⟩, hall⟩

theorem mem_setDedupAux (l : List (List Char)) :
    ∀ (seen : List (List Char)) (x : List Char),
      x ∈ setDedupAux seen l ↔ (x ∈ l ∧ x ∉ seen) := by
  induction l with
  | nil =>
    intro seen x
    simp [setDedupAux]
  | cons a t ih =>
    intro seen x
    simp only [setDedupAux]
    by_cases ha : a ∈ seen
    · rw [if_pos ha, ih]
      simp only [List.mem_cons]
      constructor
      · rintro ⟨hx, hns⟩
        exact ⟨Or.inr hx, hns⟩
      · rintro ⟨hx | hx, hns⟩
        · exact absurd (hx ▸ ha) hns
        · exact ⟨hx, hns⟩
    · rw [if_neg ha]
      simp only [List.mem_cons, ih]
      constructor
      · rintro (rfl | ⟨hx, hns⟩)
        · exact ⟨Or.inl rfl, ha⟩
        · refine ⟨Or.inr hx, ?_⟩
          intro hxs
          exact hns (Or.inr hxs)
      · rintro ⟨hx | hx, hns⟩
        · exact Or.inl hx
        · by_cases hxa : x = a
          · exact Or.inl hxa
          · refine Or.inr ⟨hx, ?_⟩
            rintro (h | h)
            · exact hxa h
            · exact hns h

theorem nodup_setDedupAux (l : List (List Char)) :
    ∀ seen : List (List Char), (setDedupAux seen l).Nodup := by
  induction l with
  | nil =>
    intro seen
    simp [setDedupAux]
  | cons a t ih =>
    intro seen
    simp only [setDedupAux]
    by_cases ha : a ∈ seen
    · rw [if_pos ha]
      exact ih seen
    · rw [if_neg ha]
      refine List.nodup_cons.2 ⟨?_, ih (a :: seen)⟩
      intro hmem
      exact ((mem_setDedupAux t (a :: seen) a).1 hmem).2 (List.mem_cons_self a seen)

theorem sublist_setDedupAux (l : List (List Char)) :
    ∀ seen : List (List Char), (setDedupAux seen l).Sublist l := by
  induction l with
  | nil =>
    intro seen
    simp [setDedupAux]
  | cons a t ih =>
    intro seen
    simp only [setDedupAux]
    by_cases ha : a ∈ seen
    · rw [if_pos ha]
      exact List.Sublist.cons a (ih seen)
    · rw [if_neg ha]
      exact List.Sublist.cons₂ a (ih (a :: seen))

theorem firstIdx_cons_self (x : List Char) (t : List (List Char)) :
    firstIdx x (x :: t) = 0 := by
  simp [firstIdx]

theorem firstIdx_cons_ne (x y : List Char) (t : List (List Char)) (h : y ≠ x) :
    firstIdx x (y :: t) = firstIdx x t + 1 := by
  simp [firstIdx, h]

theorem firstIdx_setDedupAux (l : List (List Char)) :
    ∀ (seen : List (List Char)) (x y : List Char), x ≠ y →
      x ∈ setDedupAux seen l → y ∈ setDedupAux seen l →
      (firstIdx x (setDedupAux seen l) < firstIdx y (setDedupAux seen l) ↔
        firstIdx x l < firstIdx y l) := by
  induction l with
  | nil =>
    intro seen x y _ hx _
    simp [setDedupAux] at hx
  | cons a t ih =>
    intro seen x y hxy hx hy
    simp only [setDedupAux] at hx hy ⊢
    by_cases ha : a ∈ seen
    · rw [if_pos ha] at hx hy ⊢
      have hxa : a ≠ x := by
        intro h
        exact ((mem_setDedupAux t seen x).1 hx).2 (h ▸ ha)
      have hya : a ≠ y := by
        intro h
        exact ((mem_setDedupAux t seen y).1 hy).2 (h ▸ ha)
      rw [firstIdx_cons_ne x a t hxa, firstIdx_cons_ne y a t hya]
      have hih := ih seen x y hxy hx hy
      omega
    · rw [if_neg ha] at hx hy ⊢
      rcases List.mem_cons.1 hx with rfl | hx'
      · rcases List.mem_cons.1 hy with rfl | hy'
        · exact absurd rfl hxy
        · rw [firstIdx_cons_self x (setDedupAux (x :: seen) t),
            firstIdx_cons_ne y x (setDedupAux (x :: seen) t) hxy,
            firstIdx_cons_self x t, firstIdx_cons_ne y x t hxy]
          omega
      · rcases List.mem_cons.1 hy with rfl | hy'
        · rw [firstIdx_cons_self y (setDedupAux (y :: seen) t),
            firstIdx_cons_ne x y (setDedupAux (y :: seen) t) (Ne.symm hxy),
            firstIdx_cons_self y t, firstIdx_cons_ne x y t (Ne.symm hxy)]
          omega
        · have hxa : a ≠ x := by
            intro h
            exact ((mem_setDedupAux t (a :: seen) x).1 hx').2
              (List.mem_cons.2 (Or.inl h.symm))
          have hya : a ≠ y := by
            intro h
            exact ((mem_setDedupAux t (a :: seen) y).1 hy').2
              (List.mem_cons.2 (Or.inl h.symm))
          rw [firstIdx_cons_ne x a (setDedupAux (a :: seen) t) hxa,
            firstIdx_cons_ne y a (setDedupAux (a :: seen) t) hya,
            firstIdx_cons_ne x a t hxa, firstIdx_cons_ne y a t hya]
          have hih := ih (a :: seen) x y hxy hx' hy'
          omega

/-! ### Claim theorems -/

/-- C1 counterexample: the claim quantifies over every candidate set, but
`getSuggestions` lower-cases only the query, so the candidate `"Python"`,
which starts with the query `"py"` case-insensitively, is omitted from the
result. -/
theorem getSuggestions_ci_counterexample :
    ciStartsWith (lit "Python") (lit "py") = true ∧
    lit "Python" ∉ getSuggestions (lit "py") [lit "Python"] [] := by decide

/-- C1 (amended): for every query q, candidate set C all of whose entries
are lowercase (as the spec assumes), and last-used language, every string
returned by `getSuggestions` starts with q case-insensitively, no string
in C that starts with q case-insensitively is omitted, and the filter step
keeps the candidate set's iteration order (it is a sublist of C). -/
theorem getSuggestions_ci_of_lowercase (query : List Char)
    (languages : List (List Char)) (last : List Char)
    (hlc : ∀ x ∈ languages, jsToLowerCase x = x) :
    (∀ x ∈ getSuggestions query languages last, ciStartsWith x query = true) ∧
    (∀ x ∈ languages, ciStartsWith x query = true →
      x ∈ getSuggestions query languages last) ∧
    (languages.filter (fun lang => jsStartsWith lang (jsToLowerCase query))).Sublist
      languages := by
  refine ⟨?_, ?_, List.filter_sublist languages⟩
  · intro x hx
    have hx' := (mem_getSuggestions query languages last x).1 hx
    have hmem := (List.mem_filter.1 hx').1
    have hpred := (List.mem_filter.1 hx').2
    unfold ciStartsWith
    rw [hlc x hmem]
    simpa using hpred
  · intro x hmem hci
    apply (mem_getSuggestions query languages last x).2
    apply List.mem_filter.2
    refine ⟨hmem, ?_⟩
    unfold ciStartsWith at hci
    rw [hlc x hmem] at hci
    simpa using hci

/-- C1 witness: with lowercase candidates, a case-insensitive prefix match
is returned. -/
theorem getSuggestions_ci_of_lowercase_witness :
    lit "python" ∈ getSuggestions (lit "py") [lit "python", lit "php"] [] :=
  (getSuggestions_ci_of_lowercase (lit "py") [lit "python", lit "php"] []
    (by decide)).2.1 (lit "python") (by decide) (by decide)

/-- C2: the code evaluated at the failing input. With line text
"```python" and the cursor at column 0 (not at the end of the word run),
`onTrigger` still fires, with query "python" and the nonsensical start
column -6, because the source matches the whole line against the fence
regex and never consults the cursor column. The claim says no trigger may
be returned here. -/
theorem onTrigger_ignores_cursor_eval :
    onTrigger ⟨0, 0⟩ (lit "```python") =
      some ⟨⟨0, -6⟩, ⟨0, 0⟩, lit "python"⟩ := by decide

/-- C3: if `lastUsedLanguage` is non-empty, starts with the lower-cased
query, and is in the prefix-filtered result, `getSuggestions` returns it
first followed by the other filtered entries in their filtered order;
otherwise the filtered list is returned unchanged. -/
theorem getSuggestions_lastUsed_spec (query : List Char)
    (languages : List (List Char)) (last : List Char) :
    (last ≠ [] → jsStartsWith last (jsToLowerCase query) = true →
      last ∈ languages.filter (fun lang => jsStartsWith lang (jsToLowerCase query)) →
      getSuggestions query languages last =
        last ::
          (languages.filter (fun lang => jsStartsWith lang (jsToLowerCase query))).filter
            (fun lang => decide (lang ≠ last))) ∧
    ((last = [] ∨ jsStartsWith last (jsToLowerCase query) = false ∨
        last ∉ languages.filter (fun lang => jsStartsWith lang (jsToLowerCase query))) →
      getSuggestions query languages last =
        languages.filter (fun lang => jsStartsWith lang (jsToLowerCase query))) ∧
    ((languages.filter (fun lang => jsStartsWith lang (jsToLowerCase query))).filter
        (fun lang => decide (lang ≠ last))).Sublist
      (languages.filter (fun lang => jsStartsWith lang (jsToLowerCase query))) := by
  refine ⟨?_, ?_, List.filter_sublist _⟩
  · intro h1 h2 h3
    exact getSuggestions_cond_pos query languages last h1 h2 h3
  · intro h
    apply getSuggestions_cond_neg
    rintro ⟨h1, h2, h3⟩
    rcases h with h | h | h
    · exact h1 h
    · simp [h] at h2
    · exact h h3

/-- C3 witness: the spec's end-to-end scenario 2. -/
theorem getSuggestions_lastUsed_spec_witness :
    getSuggestions (lit "p") [lit "python", lit "php"] (lit "php") =
      [lit "php", lit "python"] := by
  have h := (getSuggestions_lastUsed_spec (lit "p") [lit "python", lit "php"]
    (lit "php")).1 (by decide) (by decide) (by decide)
  rw [h]
  decide

/-- C4: `updateLanguages` sets the candidate list to the parsed user
languages followed by the built-ins with duplicates collapsed to the first
occurrence: the result has no duplicates, has exactly the members of the
concatenation, and keeps the concatenation's first-occurrence order (so a
user entry equal to a built-in keeps the user entry's earlier position). -/
theorem updateLanguages_spec (s : List Char) :
    updateLanguages s =
      arrayFromSet (parseAdditionalLanguages s ++ baseLanguages) ∧
    (updateLanguages s).Nodup ∧
    (∀ x, x ∈ updateLanguages s ↔
      x ∈ parseAdditionalLanguages s ++ baseLanguages) ∧
    (∀ x y, x ≠ y → x ∈ updateLanguages s → y ∈ updateLanguages s →
      (firstIdx x (updateLanguages s) < firstIdx y (updateLanguages s) ↔
        firstIdx x (parseAdditionalLanguages s ++ baseLanguages) <
          firstIdx y (parseAdditionalLanguages s ++ baseLanguages))) := by
  refine ⟨rfl, nodup_setDedupAux _ [], ?_, ?_⟩
  · intro x
    constructor
    · intro hx
      exact ((mem_setDedupAux (parseAdditionalLanguages s ++ baseLanguages) [] x).1 hx).1
    · intro hx
      exact (mem_setDedupAux (parseAdditionalLanguages s ++ baseLanguages) [] x).2
        ⟨hx, by simp⟩
  · intro x y hxy hx hy
    exact firstIdx_setDedupAux (parseAdditionalLanguages s ++ baseLanguages) []
      x y hxy hx hy

/-- C4 witness: with `additionalLanguages = "mylang, python"`, the user's
"python" stays ahead of the built-in "javascript", as in the
concatenation. -/
theorem updateLanguages_spec_witness :
    firstIdx (lit "python") (updateLanguages (lit "mylang, python")) <
        firstIdx (lit "javascript") (updateLanguages (lit "mylang, python")) ↔
      firstIdx (lit "python")
          (parseAdditionalLanguages (lit "mylang, python") ++ baseLanguages) <
        firstIdx (lit "javascript")
          (parseAdditionalLanguages (lit "mylang, python") ++ baseLanguages) :=
  (updateLanguages_spec (lit "mylang, python")).2.2.2 (lit "python")
    (lit "javascript") (by decide) (by decide) (by decide)

/-- C5: committing a selection replaces exactly the trigger range with the
literal chosen string, sets `lastUsedLanguage` to the chosen string,
requests a save, and moves the cursor to line `end.line + 1`, column 0. -/
theorem selectSuggestion_spec (lang : List Char)
    (ctxStart ctxStop : EditorPosition) (st : LanguageSuggesterState) :
    (selectSuggestion lang ctxStart ctxStop st).1.replaceStart = ctxStart ∧
    (selectSuggestion lang ctxStart ctxStop st).1.replaceStop = ctxStop ∧
    (selectSuggestion lang ctxStart ctxStop st).1.replaceText = lang ∧
    (selectSuggestion lang ctxStart ctxStop st).2.settings.lastUsedLanguage = lang ∧
    (selectSuggestion lang ctxStart ctxStop st).1.saveRequested = true ∧
    (selectSuggestion lang ctxStart ctxStop st).1.newCursor =
      { line := ctxStop.line + 1, ch := 0 } :=
  ⟨rfl, rfl, rfl, rfl, rfl, rfl⟩

/-- C6: `getSuggestions` is deterministic and side-effect-free: a call
leaves the suggester state (candidate list and settings) unchanged, and a
repeated call with identical arguments returns the identical list. -/
theorem getSuggestionsCall_pure (st : LanguageSuggesterState)
    (query : List Char) :
    (getSuggestionsCall st query).1 =
        (getSuggestionsCall (getSuggestionsCall st query).2 query).1 ∧
      (getSuggestionsCall st query).2 = st :=
  ⟨rfl, rfl⟩

/-- C7: for every stored value (missing record, or record missing either
field), `loadSettings` totally produces a settings record whose fields
equal the loaded values when present and the empty-string defaults
otherwise. -/
theorem loadSettings_total_defaults (stored : Option StoredSettingsData) :
    (loadSettings stored).lastUsedLanguage =
        (stored.bind StoredSettingsData.lastUsedLanguage).getD
          DEFAULT_SETTINGS.lastUsedLanguage ∧
      (loadSettings stored).additionalLanguages =
        (stored.bind StoredSettingsData.additionalLanguages).getD
          DEFAULT_SETTINGS.additionalLanguages := by
  cases stored with
  | none => exact ⟨rfl, rfl⟩
  | some d =>
    rcases d with ⟨lu, al⟩
    cases lu <;> cases al <;> exact ⟨rfl, rfl⟩

/-- C8: the Insert Code Block command inserts the literal fence text at
the cursor position, sets the cursor to the same line at column ch + 3,
and neither reads (the effect is independent of the state) nor writes (the
state passes through unchanged) any settings state. -/
theorem insertCodeBlockCommand_spec (cursor : EditorPosition)
    (st st' : LanguageSuggesterState) :
    (insertCodeBlockCommand cursor st).1.insertedText = lit "```\n\n```" ∧
    (insertCodeBlockCommand cursor st).1.insertAt = cursor ∧
    (insertCodeBlockCommand cursor st).1.newCursor =
      { line := cursor.line, ch := cursor.ch + 3 } ∧
    (insertCodeBlockCommand cursor st).2 = st ∧
    (insertCodeBlockCommand cursor st).1 = (insertCodeBlockCommand cursor st').1 :=
  ⟨rfl, rfl, rfl, rfl, rfl⟩

/-- C9: `onTrigger`'s decision depends only on the line text, not the
cursor column: whether it fires is the same for every cursor; every line
of the form p ++ three backticks ++ word-run triggers at every cursor with
start column = cursor column minus the run's length; every trigger arises
that way; and in particular line "```python" with the cursor at column 0
produces a trigger with a negative start column. -/
theorem onTrigger_depends_only_on_line :
    (∀ (c c' : EditorPosition) (line : List Char),
      (onTrigger c line).isSome = (onTrigger c' line).isSome) ∧
    (∀ (c : EditorPosition) (p w : List Char), w.all isWordChar = true →
      onTrigger c (p ++ backtick :: backtick :: backtick :: w) =
        some ⟨⟨c.line, c.ch - w.length⟩, c, w⟩) ∧
    (∀ (c : EditorPosition) (line : List Char) (t : EditorSuggestTriggerInfo),
      onTrigger c line = some t →
      (∃ p, line = p ++ backtick :: backtick :: backtick :: t.query) ∧
        t.query.all isWordChar = true ∧
        t.start = ⟨c.line, c.ch - t.query.length⟩ ∧ t.stop = c) ∧
    (∃ t, onTrigger ⟨0, 0⟩ (lit "```python") = some t ∧ t.start.ch < 0) := by
  refine ⟨?_, ?_, ?_, ?_⟩
  · intro c c' line
    unfold onTrigger
    cases fenceMatch line <;> rfl
  · intro c p w hw
    have hf : fenceMatch (p ++ backtick :: backtick :: backtick :: w) = some w :=
      (fenceMatch_eq_some _ w).2 ⟨⟨p, rfl⟩, hw⟩
    unfold onTrigger
    rw [hf]
  · intro c line t h
    unfold onTrigger at h
    cases hf : fenceMatch line with
    | none =>
      rw [hf] at h
      exact Option.noConfusion h
    | some w =>
      rw [hf] at h
      obtain ⟨⟨p, hp⟩, hall⟩ := (fenceMatch_eq_some line w).1 hf
      cases h
      exact ⟨⟨p, hp⟩, hall, rfl, rfl⟩
  · exact ⟨⟨⟨0, -6⟩, ⟨0, 0⟩, lit "python"⟩, by decide, by decide⟩

/-- C9 witness: a line ending in a fence triggers even with the cursor at
column 0, with start column = 0 - 2 = -2. -/
theorem onTrigger_depends_only_on_line_witness :
    onTrigger ⟨0, 0⟩ (lit "x" ++ backtick :: backtick :: backtick :: lit "py") =
      some ⟨⟨0, -2⟩, ⟨0, 0⟩, lit "py"⟩ := by
  have h := onTrigger_depends_only_on_line.2.1 ⟨0, 0⟩ (lit "x") (lit "py")
    (by decide)
  exact h

/-- C10: committing a selection modifies only the `lastUsedLanguage` field
of the settings; the `additionalLanguages` field and the candidate list
are unchanged (the new state differs from the old only in that field). -/
theorem selectSuggestion_frame (lang : List Char)
    (ctxStart ctxStop : EditorPosition) (st : LanguageSuggesterState) :
    (selectSuggestion lang ctxStart ctxStop st).2.languages = st.languages ∧
    (selectSuggestion lang ctxStart ctxStop st).2.settings.additionalLanguages =
      st.settings.additionalLanguages ∧
    (selectSuggestion lang ctxStart ctxStop st).2 =
      { st with settings := { st.settings with lastUsedLanguage := lang } } :=
  ⟨rfl, rfl, rfl⟩
